import Mathlib

/-!
Verification of the value-selection algorithm in `src/src/lib.rs`
(`rust-test`).  The Rust function

  `pub fn attempt(available: &[i32], allowed: &[Entry], preferred: &[Entry]) -> Vec<i32>`

is embedded shallowly.  Machine integers `i32` are modelled as `Int` (the
algorithm only compares and copies values, it never performs arithmetic on
them, so overflow cannot occur), the `unreachable!()` panics and the
potentially out-of-bounds index `present[index - 1]` are modelled by the
`Option` monad (`none` = panic), and the `HashSet<i32>` accumulator is
modelled by a duplicate-free `List Int` grown with `List.insert` (which
inserts only when absent, exactly the set semantics of `HashSet::insert`).
The final `result.sort()` is modelled by `List.insertionSort (· ≤ ·)`:
the Rust code collects the hash set (unspecified iteration order, distinct
elements) into a vector and sorts it ascending, so the returned list is
the ascending enumeration of the accumulated set, which is what sorting
the model's accumulator yields regardless of its insertion order.
-/

/-- The Rust `enum Entry { Value(i32), Any }`. -/
inductive Entry : Type where
  | Value (num : Int)
  | Any
deriving DecidableEq

/-- The expression
`allowed.iter().map(|e| match e { Value(num) => *num, Any => unreachable!() }).collect()`:
extracts the payloads of the `Value` entries in order, panicking (`none`)
on `Any`. -/
def extractValues : List Entry → Option (List Int)
  | [] => some []
  | Entry.Value num :: rest => (extractValues rest).map (fun l => num :: l)
  | Entry.Any :: _ => none

/-- The inner `loop` of Step 4: scan `present` in order; at the first
element strictly greater than `num` insert it into the accumulator and
break with `true` (the Rust loop breaks with `index = j < present.len()`);
if the scan falls off the end, break with `false` (the Rust loop breaks
with `index = present.len()`). -/
def nearestLoop (num : Int) (acc : List Int) : List Int → List Int × Bool
  | [] => (acc, false)
  | x :: xs => if num < x then (acc.insert x, true) else nearestLoop num acc xs

/-- The miss branch of Step 4 (`num` not contained in `present`): run the
scan loop; if it fell off the end (`index == present.len()`) insert
`present[index - 1]`, i.e. the last element of `present` — on an empty
`present` that index access panics (`none`). -/
def resolveMiss (num : Int) (acc : List Int) (present : List Int) : Option (List Int) :=
  match nearestLoop num acc present with
  | (acc', true) => some acc'
  | (acc', false) => (present.getLast?).map (fun y => acc'.insert y)

/-- The Step-4 `for` loop over `preferred`: a `Value num` entry inserts
`num` itself when `present.contains(num)`, otherwise runs the miss
branch; an `Any` entry hits the defensive `unreachable!()` arm
(`none`). -/
def resolveAll (present : List Int) : List Entry → List Int → Option (List Int)
  | [], acc => some acc
  | Entry.Value num :: rest, acc =>
    if num ∈ present then resolveAll present rest (acc.insert num)
    else
      match resolveMiss num acc present with
      | some acc' => resolveAll present rest acc'
      | none => none
  | Entry.Any :: _, _ => none

/-- The Rust function `attempt`.  `none` models a panic. -/
def attempt (available : List Int) (allowed : List Entry) (preferred : List Entry) :
    Option (List Int) :=
  let allowedAny : Bool := decide (Entry.Any ∈ allowed)
  let allowedVals : Option (List Int) :=
    if allowedAny then some available else extractValues allowed
  match allowedVals with
  | none => none
  | some vals =>
    let present : List Int :=
      if allowedAny then vals else available.filter (fun num => decide (num ∈ vals))
    if present = [] ∨ Entry.Any ∈ preferred then some present
    else (resolveAll present preferred []).map (fun s => s.insertionSort (· ≤ ·))

/-- The integers carried by the `Value` entries of a list, in order (what
Step 1 extracts when no `Any` is present). -/
def allowedValues (allowed : List Entry) : List Int :=
  allowed.filterMap (fun e => match e with | Entry.Value num => some num | Entry.Any => none)

/-- The present set of Step 2: all of `available` when `allowed` contains
`Any`, otherwise the subsequence of `available` whose elements occur among
the `allowed` values. -/
def presentOf (available : List Int) (allowed : List Entry) : List Int :=
  if Entry.Any ∈ allowed then available
  else available.filter (fun num => decide (num ∈ allowedValues allowed))

/-- A value is permitted by `allowed` when `allowed` contains `Any` or
contains that specific value. -/
def permitted (allowed : List Entry) (num : Int) : Prop :=
  Entry.Any ∈ allowed ∨ Entry.Value num ∈ allowed

instance (allowed : List Entry) (num : Int) : Decidable (permitted allowed num) := by
  unfold permitted; infer_instance

/-- First element of the list strictly greater than `num`, scanning left
to right (the value the Step-4 `loop` inserts when it breaks early). -/
def scanGreater (num : Int) : List Int → Option Int
  | [] => none
  | x :: xs => if num < x then some x else scanGreater num xs

/-- The single element that a `Value num` entry of `preferred` contributes
to the result set: `num` itself on an exact match, otherwise the first
present element greater than `num`, otherwise the last present element
(`none` only when `present` is empty). -/
def contrib (present : List Int) (num : Int) : Option Int :=
  if num ∈ present then some num
  else
    match scanGreater num present with
    | some x => some x
    | none => present.getLast?

/-! ### Basic lemmas about the Step 1/2 computations -/

theorem extractValues_of_not_any {allowed : List Entry} (h : Entry.Any ∉ allowed) :
    extractValues allowed = some (allowedValues allowed) := by
  induction allowed with
  | nil => rfl
  | cons e rest ih =>
    cases e with
    | Value num =>
      have hrest : Entry.Any ∉ rest := fun hm => h (List.mem_cons_of_mem _ hm)
      simp [extractValues, allowedValues, List.filterMap_cons, ih hrest]
    | Any => exact absurd (List.mem_cons_self _ _) h

theorem mem_allowedValues {allowed : List Entry} {num : Int} :
    num ∈ allowedValues allowed ↔ Entry.Value num ∈ allowed := by
  simp only [allowedValues, List.mem_filterMap]
  constructor
  · rintro ⟨e, he, hsome⟩
    cases e with
    | Value m => simp at hsome; subst hsome; exact he
    | Any => simp at hsome
  · intro h
    exact ⟨Entry.Value num, h, rfl⟩

theorem attempt_eq (available : List Int) (allowed preferred : List Entry) :
    attempt available allowed preferred =
      if presentOf available allowed = [] ∨ Entry.Any ∈ preferred
      then some (presentOf available allowed)
      else (resolveAll (presentOf available allowed) preferred []).map
        (fun s => s.insertionSort (· ≤ ·)) := by
  by_cases hA : Entry.Any ∈ allowed
  · simp [attempt, presentOf, hA]
  · simp [attempt, presentOf, hA, extractValues_of_not_any hA]

theorem mem_presentOf {available : List Int} {allowed : List Entry} {x : Int} :
    x ∈ presentOf available allowed ↔ x ∈ available ∧ permitted allowed x := by
  by_cases hA : Entry.Any ∈ allowed
  · simp [presentOf, hA, permitted]
  · simp [presentOf, hA, permitted, List.mem_filter, mem_allowedValues]

theorem presentOf_subset {available : List Int} {allowed : List Entry} {x : Int}
    (h : x ∈ presentOf available allowed) : x ∈ available :=
  (mem_presentOf.mp h).1

theorem presentOf_sorted {available : List Int} {allowed : List Entry}
    (h : available.Sorted (· ≤ ·)) : (presentOf available allowed).Sorted (· ≤ ·) := by
  by_cases hA : Entry.Any ∈ allowed
  · simpa [presentOf, hA] using h
  · simpa [presentOf, hA] using List.Pairwise.filter _ h

/-! ### Lemmas about the Step-4 scan loop -/

theorem scanGreater_eq_none {num : Int} {l : List Int} :
    scanGreater num l = none ↔ ∀ x ∈ l, x ≤ num := by
  induction l with
  | nil => simp [scanGreater]
  | cons x xs ih =>
    by_cases hx : num < x
    · simp [scanGreater, hx]
    · simp [scanGreater, hx, ih]
      intro _
      exact not_lt.mp hx

theorem scanGreater_mem_gt {num x : Int} {l : List Int}
    (h : scanGreater num l = some x) : x ∈ l ∧ num < x := by
  induction l with
  | nil => simp [scanGreater] at h
  | cons y ys ih =>
    by_cases hy : num < y
    · simp [scanGreater, hy] at h
      subst h
      exact ⟨List.mem_cons_self _ _, hy⟩
    · simp [scanGreater, hy] at h
      obtain ⟨hm, hgt⟩ := ih h
      exact ⟨List.mem_cons_of_mem _ hm, hgt⟩

theorem scanGreater_isSome {num x : Int} {l : List Int} (hm : x ∈ l) (hx : num < x) :
    ∃ y, scanGreater num l = some y := by
  induction l with
  | nil => simp at hm
  | cons z zs ih =>
    by_cases hz : num < z
    · exact ⟨z, by simp [scanGreater, hz]⟩
    · rcases List.mem_cons.mp hm with rfl | hm'
      · exact absurd hx hz
      · obtain ⟨y, hy⟩ := ih hm'
        exact ⟨y, by simp [scanGreater, hz, hy]⟩

theorem scanGreater_least {num x : Int} {l : List Int} (hs : l.Sorted (· ≤ ·))
    (h : scanGreater num l = some x) : ∀ u ∈ l, num < u → x ≤ u := by
  induction l with
  | nil => simp [scanGreater] at h
  | cons y ys ih =>
    by_cases hy : num < y
    · simp [scanGreater, hy] at h
      subst h
      intro u hu _
      rcases List.mem_cons.mp hu with rfl | hu'
      · exact le_refl u
      · exact (List.sorted_cons.mp hs).1 u hu'
    · simp [scanGreater, hy] at h
      intro u hu hgt
      rcases List.mem_cons.mp hu with rfl | hu'
      · exact absurd hgt hy
      · exact ih (List.sorted_cons.mp hs).2 h u hu' hgt

/-! ### Lemmas about `getLast?` -/

theorem getLast?_mem {l : List Int} {y : Int} (hy : l.getLast? = some y) : y ∈ l := by
  obtain ⟨h, rfl⟩ := List.mem_getLast?_eq_getLast hy
  exact List.getLast_mem h

theorem getLast?_isSome_of_ne_nil {l : List Int} (h : l ≠ []) : ∃ y, l.getLast? = some y := by
  cases l with
  | nil => exact absurd rfl h
  | cons x xs => exact ⟨(x :: xs).getLast (by simp), by simp [List.getLast?]⟩

theorem sorted_le_getLast {l : List Int} (hs : l.Sorted (· ≤ ·)) {y : Int}
    (hy : l.getLast? = some y) : ∀ u ∈ l, u ≤ y := by
  induction l with
  | nil => simp
  | cons x xs ih =>
    intro u hu
    cases xs with
    | nil =>
      simp at hy hu
      subst hy; subst hu; exact le_refl u
    | cons x' xs' =>
      rw [List.getLast?_cons_cons] at hy
      have hsx := List.sorted_cons.mp hs
      rcases List.mem_cons.mp hu with rfl | hu'
      · exact le_trans (hsx.1 x' (List.mem_cons_self _ _))
          (ih hsx.2 hy x' (List.mem_cons_self _ _))
      · exact ih hsx.2 hy u hu'

/-! ### The Step-4 loop computes `contrib` -/

theorem nearestLoop_eq (num : Int) (acc : List Int) (l : List Int) :
    nearestLoop num acc l =
      match scanGreater num l with
      | some x => (acc.insert x, true)
      | none => (acc, false) := by
  induction l with
  | nil => rfl
  | cons x xs ih =>
    by_cases hx : num < x
    · simp [nearestLoop, scanGreater, hx]
    · simp [nearestLoop, scanGreater, hx, ih]

theorem resolveMiss_eq_contrib {num : Int} {acc present : List Int} (h : num ∉ present) :
    resolveMiss num acc present = (contrib present num).map (fun x => acc.insert x) := by
  unfold resolveMiss contrib
  rw [nearestLoop_eq]
  cases hscan : scanGreater num present with
  | some x => simp [h, hscan]
  | none => simp [h, hscan]

theorem contrib_mem {present : List Int} {num x : Int} (h : contrib present num = some x) :
    x ∈ present := by
  unfold contrib at h
  by_cases hm : num ∈ present
  · simp [hm] at h
    subst h
    exact hm
  · simp [hm] at h
    cases hscan : scanGreater num present with
    | some y =>
      rw [hscan] at h
      simp at h
      subst h
      exact (scanGreater_mem_gt hscan).1
    | none =>
      rw [hscan] at h
      exact getLast?_mem h

theorem contrib_isSome {present : List Int} (num : Int) (h : present ≠ []) :
    ∃ x, contrib present num = some x := by
  unfold contrib
  by_cases hm : num ∈ present
  · exact ⟨num, by simp [hm]⟩
  · cases hscan : scanGreater num present with
    | some y => exact ⟨y, by simp [hm, hscan]⟩
    | none =>
      obtain ⟨y, hy⟩ := getLast?_isSome_of_ne_nil h
      exact ⟨y, by simp [hm, hscan, hy]⟩

theorem resolveAll_cons_value {present acc s : List Int} {num : Int} {rest : List Entry}
    (h : resolveAll present (Entry.Value num :: rest) acc = some s) :
    ∃ x₀, contrib present num = some x₀ ∧
      resolveAll present rest (acc.insert x₀) = some s := by
  by_cases hm : num ∈ present
  · exact ⟨num, by simp [contrib, hm], by simpa [resolveAll, hm] using h⟩
  · rw [resolveAll, if_neg hm] at h
    cases hc : contrib present num with
    | none =>
      rw [resolveMiss_eq_contrib hm, hc] at h
      simp at h
    | some x₀ =>
      rw [resolveMiss_eq_contrib hm, hc] at h
      exact ⟨x₀, rfl, by simpa using h⟩

theorem resolveAll_isSome {present : List Int} {preferred : List Entry} (acc : List Int)
    (hne : present ≠ []) (hAny : Entry.Any ∉ preferred) :
    ∃ s, resolveAll present preferred acc = some s := by
  induction preferred generalizing acc with
  | nil => exact ⟨acc, rfl⟩
  | cons e rest ih =>
    cases e with
    | Value num =>
      have hrest : Entry.Any ∉ rest := fun hm => hAny (List.mem_cons_of_mem _ hm)
      by_cases hm : num ∈ present
      · simpa [resolveAll, hm] using ih (acc.insert num) hrest
      · obtain ⟨x, hx⟩ := contrib_isSome num hne
        obtain ⟨s, hs⟩ := ih (acc.insert x) hrest
        refine ⟨s, ?_⟩
        rw [resolveAll, if_neg hm, resolveMiss_eq_contrib hm, hx]
        simpa using hs
    | Any => exact absurd (List.mem_cons_self _ _) hAny

theorem resolveAll_mem {present : List Int} {preferred : List Entry} {acc s : List Int}
    (h : resolveAll present preferred acc = some s) :
    ∀ x, x ∈ s ↔ x ∈ acc ∨
      ∃ num, Entry.Value num ∈ preferred ∧ contrib present num = some x := by
  induction preferred generalizing acc with
  | nil =>
    simp only [resolveAll, Option.some.injEq] at h
    subst h
    simp
  | cons e rest ih =>
    cases e with
    | Value num =>
      obtain ⟨x₀, hc, h'⟩ := resolveAll_cons_value h
      intro x
      rw [ih h' x, List.mem_insert_iff]
      simp only [List.mem_cons, Entry.Value.injEq]
      constructor
      · rintro ((rfl | hx) | ⟨m, hm', hcm⟩)
        · exact Or.inr ⟨num, Or.inl rfl, hc⟩
        · exact Or.inl hx
        · exact Or.inr ⟨m, Or.inr hm', hcm⟩
      · rintro (hx | ⟨m, (rfl | hm'), hcm⟩)
        · exact Or.inl (Or.inr hx)
        · rw [hc] at hcm
          injection hcm with hcm
          exact Or.inl (Or.inl hcm.symm)
        · exact Or.inr ⟨m, hm', hcm⟩
    | Any => simp [resolveAll] at h

theorem resolveAll_nodup {present : List Int} {preferred : List Entry} {acc s : List Int}
    (hacc : acc.Nodup) (h : resolveAll present preferred acc = some s) : s.Nodup := by
  induction preferred generalizing acc with
  | nil =>
    simp only [resolveAll, Option.some.injEq] at h
    subst h
    exact hacc
  | cons e rest ih =>
    cases e with
    | Value num =>
      obtain ⟨x₀, _, h'⟩ := resolveAll_cons_value h
      exact ih hacc.insert h'
    | Any => simp [resolveAll] at h

/-! ### Claim theorems -/

/-- C1: for every `available`, `allowed` and `preferred`, if no element of
`available` is permitted by `allowed` (the present set of Step 2 is
empty), then `attempt` returns the empty sequence, regardless of
`preferred`. -/
theorem C1_emptiness_propagation (available : List Int) (allowed preferred : List Entry)
    (h : ∀ num ∈ available, ¬ permitted allowed num) :
    attempt available allowed preferred = some [] := by
  have hp : presentOf available allowed = [] := by
    cases hcase : presentOf available allowed with
    | nil => rfl
    | cons y ys =>
      have hy : y ∈ presentOf available allowed := by
        rw [hcase]
        exact List.mem_cons_self _ _
      exact absurd (mem_presentOf.mp hy).2 (h y (presentOf_subset hy))
  rw [attempt_eq, if_pos (Or.inl hp), hp]

theorem C1_witness :
    (∀ num ∈ ([240] : List Int), ¬ permitted [Entry.Value 360, Entry.Value 720] num) ∧
      attempt [240] [Entry.Value 360, Entry.Value 720] [Entry.Value 1080] = some [] :=
  ⟨by decide, C1_emptiness_propagation [240] [Entry.Value 360, Entry.Value 720]
    [Entry.Value 1080] (by decide)⟩

/-- C3: whenever `preferred` contains `Any`, `attempt` returns the Step-2
present set exactly (order and multiplicity preserved, no sorting or
deduplication); in particular when `allowed` also contains `Any` the
present set is `available` itself. -/
theorem C3_wildcard_preferred_passthrough (available : List Int)
    (allowed preferred : List Entry) (h : Entry.Any ∈ preferred) :
    attempt available allowed preferred = some (presentOf available allowed) ∧
      (Entry.Any ∈ allowed → presentOf available allowed = available) := by
  refine ⟨?_, fun hA => by simp [presentOf, hA]⟩
  rw [attempt_eq, if_pos (Or.inr h)]

theorem C3_witness :
    Entry.Any ∈ [Entry.Any, Entry.Value 720] ∧
      (attempt [720, 240, 240] [Entry.Any] [Entry.Any, Entry.Value 720]
          = some (presentOf [720, 240, 240] [Entry.Any]) ∧
        (Entry.Any ∈ [Entry.Any] → presentOf [720, 240, 240] [Entry.Any] = [720, 240, 240])) :=
  ⟨by decide, C3_wildcard_preferred_passthrough [720, 240, 240] [Entry.Any]
    [Entry.Any, Entry.Value 720] (by decide)⟩

/-- C4: for every input and every `Value v` entry of `preferred` whose
value `v` belongs to the present set, `v` appears in the sequence returned
by `attempt`. -/
theorem C4_exact_match_containment (available : List Int) (allowed preferred : List Entry)
    (v : Int) (hv : Entry.Value v ∈ preferred) (hp : v ∈ presentOf available allowed) :
    ∃ r, attempt available allowed preferred = some r ∧ v ∈ r := by
  have hne : presentOf available allowed ≠ [] := fun h0 => by simp [h0] at hp
  rw [attempt_eq]
  by_cases hA : Entry.Any ∈ preferred
  · rw [if_pos (Or.inr hA)]
    exact ⟨_, rfl, hp⟩
  · rw [if_neg (not_or.mpr ⟨hne, hA⟩)]
    obtain ⟨s, hs⟩ := resolveAll_isSome [] hne hA
    rw [hs]
    refine ⟨_, rfl, ?_⟩
    simp only [List.mem_insertionSort]
    exact (resolveAll_mem hs v).mpr (Or.inr ⟨v, hv, by simp [contrib, hp]⟩)

theorem C4_witness :
    Entry.Value 360 ∈ [Entry.Value 360, Entry.Value 1080] ∧
      360 ∈ presentOf [240, 360] [Entry.Value 360] ∧
      ∃ r, attempt [240, 360] [Entry.Value 360] [Entry.Value 360, Entry.Value 1080] = some r ∧
        360 ∈ r :=
  ⟨by decide, by decide, C4_exact_match_containment [240, 360] [Entry.Value 360]
    [Entry.Value 360, Entry.Value 1080] 360 (by decide) (by decide)⟩

/-- C5: when the present set is non-empty and `preferred` is empty,
`attempt` returns the empty sequence — the Step-2 early return fires only
on an empty present set, not on an empty `preferred`. -/
theorem C5_empty_preferred (available : List Int) (allowed : List Entry)
    (h : presentOf available allowed ≠ []) :
    attempt available allowed [] = some [] := by
  rw [attempt_eq, if_neg (by simp [h])]
  simp [resolveAll, List.insertionSort]

theorem C5_witness :
    presentOf [240, 360] [Entry.Value 240, Entry.Value 360] ≠ [] ∧
      attempt [240, 360] [Entry.Value 240, Entry.Value 360] [] = some [] :=
  ⟨by decide, C5_empty_preferred [240, 360] [Entry.Value 240, Entry.Value 360] (by decide)⟩

/-- C6: whenever `attempt` returns via the Step-4/5 path (present set
non-empty, no `Any` in `preferred`), the returned sequence is strictly
ascending (hence duplicate-free) and all its elements occur in
`available`. -/
theorem C6_output_wellformed (available : List Int) (allowed preferred : List Entry)
    (hne : presentOf available allowed ≠ []) (hA : Entry.Any ∉ preferred) :
    ∃ r, attempt available allowed preferred = some r ∧
      r.Sorted (· < ·) ∧ ∀ x ∈ r, x ∈ available := by
  obtain ⟨s, hs⟩ := resolveAll_isSome [] hne hA
  rw [attempt_eq, if_neg (not_or.mpr ⟨hne, hA⟩), hs]
  refine ⟨_, rfl, ?_, ?_⟩
  · have hnd : s.Nodup := resolveAll_nodup List.nodup_nil hs
    have hnd' : (s.insertionSort (· ≤ ·)).Nodup :=
      ((List.perm_insertionSort _ s).nodup_iff).mpr hnd
    exact (List.sorted_insertionSort _ s).lt_of_le hnd'
  · intro x hx
    rw [List.mem_insertionSort] at hx
    rcases (resolveAll_mem hs x).mp hx with hx' | ⟨num, _, hc⟩
    · simp at hx'
    · exact presentOf_subset (contrib_mem hc)

theorem C6_witness :
    presentOf [240, 720] [Entry.Value 240, Entry.Value 720] ≠ [] ∧
      Entry.Any ∉ [Entry.Value 360] ∧
      ∃ r, attempt [240, 720] [Entry.Value 240, Entry.Value 720] [Entry.Value 360] = some r ∧
        r.Sorted (· < ·) ∧ ∀ x ∈ r, x ∈ ([240, 720] : List Int) :=
  ⟨by decide, by decide, C6_output_wellformed [240, 720] [Entry.Value 240, Entry.Value 720]
    [Entry.Value 360] (by decide) (by decide)⟩

/-- C8: the defensive `unreachable!()` arm for an `Any` entry inside
`preferred` during Step 4 never fires: under exactly the conditions in
which `attempt` enters the Step-4 loop (non-empty present set, and no
`Any` in `preferred` since the Step-3 guard has already returned
otherwise), the loop completes without reaching a panic (`none`). -/
theorem C8_unreachable_any_arm (present : List Int) (preferred : List Entry)
    (acc : List Int) (hA : Entry.Any ∉ preferred) (hne : present ≠ []) :
    resolveAll present preferred acc ≠ none := by
  obtain ⟨s, hs⟩ := resolveAll_isSome acc hne hA
  simp [hs]

theorem C8_witness :
    Entry.Any ∉ [Entry.Value 360] ∧ ([240, 720] : List Int) ≠ [] ∧
      resolveAll [240, 720] [Entry.Value 360] [] ≠ none :=
  ⟨by decide, by decide, C8_unreachable_any_arm [240, 720] [Entry.Value 360] []
    (by decide) (by decide)⟩

/-- C9: the concrete scenario of test `example_6`:
`attempt([240, 720], [Value 240, Value 360, Value 1080], [Value 240, Value 360])`
returns `[240]` (present set is `[240]`; `240` matches exactly; for `360`
no greater present value exists so the last present element `240` is
inserted; the union is `{240}`). -/
theorem C9_example_6 :
    attempt [240, 720] [Entry.Value 240, Entry.Value 360, Entry.Value 1080]
      [Entry.Value 240, Entry.Value 360] = some [240] := by decide

/-- C10: `attempt` is total — it terminates and never panics on any
input; in the embedding, where `none` models the `unreachable!()` arms and
the `present[index - 1]` out-of-bounds access, the result is always
`some`. -/
theorem C10_attempt_total (available : List Int) (allowed preferred : List Entry) :
    (attempt available allowed preferred).isSome = true := by
  rw [attempt_eq]
  by_cases hg : presentOf available allowed = [] ∨ Entry.Any ∈ preferred
  · rw [if_pos hg]
    rfl
  · push_neg at hg
    rw [if_neg (not_or.mpr ⟨hg.1, hg.2⟩)]
    obtain ⟨s, hs⟩ := resolveAll_isSome [] hg.1 hg.2
    simp [hs]

/-- C2: with `available` sorted ascending, no `Any` in `preferred`, and a
`Value v` entry of `preferred` whose value is not in the (non-empty)
present set, the result of `attempt` contains either the least present
value strictly greater than `v`, or, if no present value exceeds `v`, the
greatest present value. -/
theorem C2_nearest_fallback (available : List Int) (allowed preferred : List Entry)
    (v : Int) (hsort : available.Sorted (· ≤ ·)) (hA : Entry.Any ∉ preferred)
    (hv : Entry.Value v ∈ preferred) (hnp : v ∉ presentOf available allowed)
    (hne : presentOf available allowed ≠ []) :
    ∃ r, attempt available allowed preferred = some r ∧
      ((∃ w ∈ presentOf available allowed, v < w ∧
          (∀ u ∈ presentOf available allowed, v < u → w ≤ u) ∧ w ∈ r) ∨
        ((∀ u ∈ presentOf available allowed, u ≤ v) ∧
          ∃ w ∈ presentOf available allowed,
            (∀ u ∈ presentOf available allowed, u ≤ w) ∧ w ∈ r)) := by
  obtain ⟨s, hs⟩ := resolveAll_isSome [] hne hA
  rw [attempt_eq, if_neg (not_or.mpr ⟨hne, hA⟩), hs]
  refine ⟨_, rfl, ?_⟩
  have hPs : (presentOf available allowed).Sorted (· ≤ ·) := presentOf_sorted hsort
  obtain ⟨x, hx⟩ := contrib_isSome v hne
  have hxs : x ∈ s := (resolveAll_mem hs x).mpr (Or.inr ⟨v, hv, hx⟩)
  have hxr : x ∈ s.insertionSort (· ≤ ·) := (List.mem_insertionSort _).mpr hxs
  unfold contrib at hx
  rw [if_neg hnp] at hx
  cases hscan : scanGreater v (presentOf available allowed) with
  | some y =>
    rw [hscan] at hx
    injection hx with hx
    subst hx
    obtain ⟨hymem, hygt⟩ := scanGreater_mem_gt hscan
    exact Or.inl ⟨y, hymem, hygt, scanGreater_least hPs hscan, hxr⟩
  | none =>
    rw [hscan] at hx
    exact Or.inr ⟨scanGreater_eq_none.mp hscan,
      x, getLast?_mem hx, sorted_le_getLast hPs hx, hxr⟩

theorem C2_witness :
    ([240, 720] : List Int).Sorted (· ≤ ·) ∧
      Entry.Any ∉ [Entry.Value 360] ∧
      Entry.Value 360 ∈ [Entry.Value 360] ∧
      (360 : Int) ∉ presentOf [240, 720] [Entry.Value 240, Entry.Value 720] ∧
      presentOf [240, 720] [Entry.Value 240, Entry.Value 720] ≠ [] ∧
      ∃ r, attempt [240, 720] [Entry.Value 240, Entry.Value 720] [Entry.Value 360] = some r ∧
        ((∃ w ∈ presentOf [240, 720] [Entry.Value 240, Entry.Value 720], 360 < w ∧
            (∀ u ∈ presentOf [240, 720] [Entry.Value 240, Entry.Value 720], 360 < u → w ≤ u) ∧
            w ∈ r) ∨
          ((∀ u ∈ presentOf [240, 720] [Entry.Value 240, Entry.Value 720], u ≤ 360) ∧
            ∃ w ∈ presentOf [240, 720] [Entry.Value 240, Entry.Value 720],
              (∀ u ∈ presentOf [240, 720] [Entry.Value 240, Entry.Value 720], u ≤ w) ∧
              w ∈ r)) :=
  ⟨by decide, by decide, by decide, by decide, by decide,
    C2_nearest_fallback [240, 720] [Entry.Value 240, Entry.Value 720] [Entry.Value 360] 360
      (by decide) (by decide) (by decide) (by decide) (by decide)⟩

/-! ### Stability under self-application -/

theorem presentOf_of_permitted {O : List Int} {allowed : List Entry}
    (hfix : ∀ x ∈ O, permitted allowed x) : presentOf O allowed = O := by
  by_cases hA : Entry.Any ∈ allowed
  · simp [presentOf, hA]
  · rw [presentOf, if_neg hA, List.filter_eq_self]
    intro a ha
    rcases hfix a ha with h | h
    · exact absurd h hA
    · simp [mem_allowedValues, h]

theorem contrib_stable {P O : List Int} {num : Int}
    (hPs : P.Sorted (· ≤ ·)) (hOs : O.Sorted (· ≤ ·))
    (hOP : ∀ x ∈ O, x ∈ P) (hne : P ≠ []) (hOne : O ≠ [])
    (hin : ∀ x, contrib P num = some x → x ∈ O) :
    contrib O num = contrib P num := by
  by_cases hm : num ∈ P
  · have hc : contrib P num = some num := by
      unfold contrib
      rw [if_pos hm]
    have hnO : num ∈ O := hin num hc
    rw [hc, contrib, if_pos hnO]
  · have hnO : num ∉ O := fun h => hm (hOP num h)
    unfold contrib
    rw [if_neg hm, if_neg hnO]
    cases hscan : scanGreater num P with
    | some y =>
      have hcP : contrib P num = some y := by
        unfold contrib
        rw [if_neg hm, hscan]
      have hyO : y ∈ O := hin y hcP
      obtain ⟨hymemP, hygt⟩ := scanGreater_mem_gt hscan
      obtain ⟨z, hz⟩ := scanGreater_isSome hyO hygt
      obtain ⟨hzO, hzgt⟩ := scanGreater_mem_gt hz
      have hzy : z ≤ y := scanGreater_least hOs hz y hyO hygt
      have hyz : y ≤ z := scanGreater_least hPs hscan z (hOP z hzO) hzgt
      rw [hz]
      exact congrArg some (le_antisymm hzy hyz)
    | none =>
      have hnoneO : scanGreater num O = none :=
        scanGreater_eq_none.mpr fun u hu => scanGreater_eq_none.mp hscan u (hOP u hu)
      obtain ⟨y, hy⟩ := getLast?_isSome_of_ne_nil hne
      have hcP : contrib P num = some y := by
        unfold contrib
        rw [if_neg hm, hscan, hy]
      have hyO : y ∈ O := hin y hcP
      obtain ⟨z, hz⟩ := getLast?_isSome_of_ne_nil hOne
      have hzy : z ≤ y := sorted_le_getLast hPs hy z (hOP z (getLast?_mem hz))
      have hyz : y ≤ z := sorted_le_getLast hOs hz y hyO
      rw [hnoneO]
      show O.getLast? = P.getLast?
      rw [hy, hz]
      exact congrArg some (le_antisymm hzy hyz)

/-- C7 as stated fails on the code: with the unsorted sequence
`available = [720, 300]` (every element of the output permitted by
`allowed`), `attempt` returns `[300, 720]`, yet applying `attempt` to that
output as the new `available` returns `[300]`, not `[300, 720]` — the
first-greater scan over the unsorted present set had picked `720` for the
missing value `100`, while the re-run over the sorted output picks
`300`. -/
theorem C7_counterexample :
    attempt [720, 300] [Entry.Value 720, Entry.Value 300]
        [Entry.Value 300, Entry.Value 100] = some [300, 720] ∧
      (([300, 720] : List Int).all fun x =>
        decide (permitted [Entry.Value 720, Entry.Value 300] x)) = true ∧
      attempt [300, 720] [Entry.Value 720, Entry.Value 300]
        [Entry.Value 300, Entry.Value 100] ≠ some [300, 720] := by decide

/-- C7 (amended): `attempt` is deterministic (it is a pure function:
identical inputs give identical outputs), and — provided `available` is
sorted ascending — it is stable under self-application: if
`attempt available allowed preferred = some O` and every element of `O`
is permitted by `allowed`, then `attempt O allowed preferred = some O`.
(The sortedness hypothesis is forced by the counterexample: on unsorted
`available` the first-greater scan need not pick the least greater
present value, and re-application can shrink the output.) -/
theorem C7_determinism_idempotence (available O : List Int)
    (allowed preferred : List Entry)
    (hsort : available.Sorted (· ≤ ·))
    (hO : attempt available allowed preferred = some O)
    (hfix : ∀ x ∈ O, permitted allowed x) :
    attempt available allowed preferred = attempt available allowed preferred ∧
      attempt O allowed preferred = some O := by
  refine ⟨rfl, ?_⟩
  rw [attempt_eq] at hO
  by_cases hg : presentOf available allowed = [] ∨ Entry.Any ∈ preferred
  · rw [if_pos hg] at hO
    injection hO with hO
    rw [attempt_eq, presentOf_of_permitted hfix]
    rcases hg with hp | hAny
    · rw [hO] at hp
      rw [if_pos (Or.inl hp)]
    · rw [if_pos (Or.inr hAny)]
  · push_neg at hg
    obtain ⟨hne, hAny⟩ := hg
    rw [if_neg (not_or.mpr ⟨hne, hAny⟩)] at hO
    obtain ⟨s, hs⟩ := resolveAll_isSome [] hne hAny
    rw [hs, Option.map_some'] at hO
    injection hO with hO
    have hOs : O.Sorted (· ≤ ·) := hO ▸ List.sorted_insertionSort _ s
    have hOmem : ∀ x : Int, x ∈ O ↔ x ∈ s := fun x => by
      rw [← hO]
      exact List.mem_insertionSort _
    have hOP : ∀ x ∈ O, x ∈ presentOf available allowed := by
      intro x hx
      rcases (resolveAll_mem hs x).mp ((hOmem x).mp hx) with h0 | ⟨num, _, hc⟩
      · simp at h0
      · exact contrib_mem hc
    rw [attempt_eq, presentOf_of_permitted hfix]
    by_cases hOnil : O = []
    · rw [if_pos (Or.inl hOnil), hOnil]
    · rw [if_neg (not_or.mpr ⟨hOnil, hAny⟩)]
      obtain ⟨s', hs'⟩ := @resolveAll_isSome O preferred [] hOnil hAny
      rw [hs', Option.map_some']
      have hPs : (presentOf available allowed).Sorted (· ≤ ·) := presentOf_sorted hsort
      have hcontrib : ∀ num, Entry.Value num ∈ preferred →
          contrib O num = contrib (presentOf available allowed) num := by
        intro num hnum
        exact contrib_stable hPs hOs hOP hne hOnil
          (fun x hx => (hOmem x).mpr ((resolveAll_mem hs x).mpr (Or.inr ⟨num, hnum, hx⟩)))
      have hmem : ∀ x : Int, x ∈ s' ↔ x ∈ s := by
        intro x
        rw [resolveAll_mem hs' x, resolveAll_mem hs x]
        simp only [List.not_mem_nil, false_or]
        constructor
        · rintro ⟨num, hnum, hc⟩
          exact ⟨num, hnum, (hcontrib num hnum) ▸ hc⟩
        · rintro ⟨num, hnum, hc⟩
          exact ⟨num, hnum, (hcontrib num hnum).symm ▸ hc⟩
      have hnd : s.Nodup := resolveAll_nodup List.nodup_nil hs
      have hnd' : s'.Nodup := resolveAll_nodup List.nodup_nil hs'
      have hperm : List.Perm s' s := (List.perm_ext_iff_of_nodup hnd' hnd).mpr hmem
      have hsortseq : s'.insertionSort (· ≤ ·) = s.insertionSort (· ≤ ·) :=
        List.eq_of_perm_of_sorted
          (((List.perm_insertionSort _ s').trans hperm).trans
            (List.perm_insertionSort _ s).symm)
          (List.sorted_insertionSort _ s') (List.sorted_insertionSort _ s)
      rw [hsortseq, hO]

theorem C7_witness :
    ([240, 720] : List Int).Sorted (· ≤ ·) ∧
      attempt [240, 720] [Entry.Value 240, Entry.Value 720] [Entry.Value 360]
          = some [720] ∧
      (∀ x ∈ ([720] : List Int), permitted [Entry.Value 240, Entry.Value 720] x) ∧
      (attempt [240, 720] [Entry.Value 240, Entry.Value 720] [Entry.Value 360]
          = attempt [240, 720] [Entry.Value 240, Entry.Value 720] [Entry.Value 360] ∧
        attempt [720] [Entry.Value 240, Entry.Value 720] [Entry.Value 360] = some [720]) :=
  ⟨by decide, by decide, by decide,
    C7_determinism_idempotence [240, 720] [720] [Entry.Value 240, Entry.Value 720]
      [Entry.Value 360] (by decide) (by decide) (by decide)⟩

